/-
Verification of the collection-and-cleaning pipeline (collect_and_clean.py).

The file embeds the program shallowly:
  * Yaml models the values produced by yaml.safe_load (None, bool, int,
    str, list, dict).  Python truthiness is modelled by truthy.
  * load_config mirrors the source function load_config line by line,
    with the filesystem passed explicitly (FS) and exceptions modelled
    by Except PipeErr.  The dataclass field named include is rendered
    as incl and the field named export as exportCfg because those words
    are reserved in Lean; everything else keeps the source names.
  * collect_files mirrors the source function collect_files; pathlib
    paths are modelled as component lists, rglob with a single-component
    pattern is modelled by matching the glob against the final path
    component of every entry strictly below the base directory, and
    sorted(set(..)) is modelled by sortedSet, an insertion into a
    strictly sorted duplicate-free list.  Path objects compare by their
    rendered string (joinPath), matching lexicographic full-path order.
  * The record cleaner and the exporter are not implemented in the
    source (the module only declares their configuration); they are
    modelled from the specification where a claim needs them, and each
    such definition is marked in its doc comment.

Machine integers do not occur; Python ints are modelled as Int.  Char
case-mapping is modelled on the ASCII range, which is the range the
configuration keys and format names use.
-/
import Mathlib

/-- Values produced by yaml.safe_load: None, booleans, integers, strings,
lists and dictionaries (dictionaries as ordered association lists with
distinct keys, matching Python dict iteration order). -/
inductive Yaml where
  | null : Yaml
  | bool (b : Bool) : Yaml
  | num (n : Int) : Yaml
  | str (s : String) : Yaml
  | list (xs : List Yaml) : Yaml
  | dict (kvs : List (String × Yaml)) : Yaml

/-- Python truthiness of a YAML value: None, False, 0, the empty string,
the empty list and the empty dict are falsy, everything else is truthy. -/
def truthy : Yaml → Bool
  | .null => false
  | .bool b => b
  | .num n => n != 0
  | .str s => !s.isEmpty
  | .list xs => !xs.isEmpty
  | .dict kvs => !kvs.isEmpty

/-- Model of dict.get(k): the value at the first occurrence of the key,
or None when the key is absent. -/
def yget (kvs : List (String × Yaml)) (k : String) : Option Yaml :=
  (kvs.find? (fun kv => kv.1 == k)).map (fun kv => kv.2)

/-- Model of dict.get(k, d): lookup with a default. -/
def ygetD (kvs : List (String × Yaml)) (k : String) (d : Yaml) : Yaml :=
  (yget kvs k).getD d

/-- ASCII lower-casing of one character, as str.lower acts on the ASCII
range (the only range the configuration format names use). -/
def lowerChar (c : Char) : Char :=
  if h : 65 ≤ c.toNat ∧ c.toNat ≤ 90 then
    Char.ofNatAux (c.toNat + 32) (Or.inl (by omega))
  else c

/-- Model of str.lower on a whole string. -/
def strLower (s : String) : String :=
  String.mk (s.data.map lowerChar)

mutual

/-- Model of Python str() applied to a YAML value: strings pass through,
scalars render as Python renders them, containers render as their repr
(string elements single-quoted, written with the escape to keep the
rendering faithful). -/
def pyStr : Yaml → String
  | .str s => s
  | y => pyRepr y

/-- Model of Python repr for YAML values, used by str() on containers. -/
def pyRepr : Yaml → String
  | .null => "None"
  | .bool b => if b then "True" else "False"
  | .num n => toString n
  | .str s => "\x27" ++ s ++ "\x27"
  | .list xs => "[" ++ String.intercalate ", " (pyReprList xs) ++ "]"
  | .dict kvs => "\x7b" ++ String.intercalate ", " (pyReprDict kvs) ++ "\x7d"

/-- Renders each element of a YAML list. -/
def pyReprList : List Yaml → List String
  | [] => []
  | y :: ys => pyRepr y :: pyReprList ys

/-- Renders each key-value pair of a YAML dict. -/
def pyReprDict : List (String × Yaml) → List String
  | [] => []
  | kv :: kvs => ("\x27" ++ kv.1 ++ "\x27: " ++ pyRepr kv.2) :: pyReprDict kvs

end

/-- Tests whether a YAML value is a list, as isinstance(v, list) does. -/
def Yaml.isList : Yaml → Bool
  | .list _ => true
  | _ => false

/-- Tests whether a YAML value is a dict, as isinstance(v, dict) does. -/
def Yaml.isDict : Yaml → Bool
  | .dict _ => true
  | _ => false

/-- Errors the pipeline can raise: the FileNotFoundError of load_config,
a YAML parse failure, the AttributeError Python raises when .get is
called on a non-dict, the TypeError list() raises on a non-iterable,
and the unrecognized-export-format configuration error of the export
contract. -/
inductive PipeErr where
  | fileNotFound (p : String) : PipeErr
  | parseError : PipeErr
  | attributeError : PipeErr
  | typeError : PipeErr
  | unrecognizedExportFormat : PipeErr
deriving DecidableEq

/-- Outcome of reading and yaml.safe_load-ing one config file: either a
parse failure or a parsed document (an empty document parses to null). -/
inductive Parsed where
  | bad : Parsed
  | ok (v : Yaml) : Parsed

/-- Kind of a filesystem entry, distinguishing regular files, directories
and symlinks by what they resolve to, as pathlib is_file does. -/
inductive FileKind where
  | regularFile : FileKind
  | directory : FileKind
  | symlinkToFile : FileKind
  | symlinkToDir : FileKind
deriving DecidableEq

/-- One filesystem entry: its path as a list of components (no component
contains a slash) and its kind. -/
structure FSEntry where
  path : List String
  kind : FileKind
deriving DecidableEq

/-- The filesystem state a run sees: the parse outcome of each readable
config file, and the directory-tree entries visible to file discovery. -/
structure FS where
  configs : List (String × Parsed)
  entries : List FSEntry

/-- Mirrors the dataclass SourceConfig (path, include); the include field
is rendered incl because include is reserved in Lean. -/
structure SourceConfig where
  path : String
  incl : List String
deriving DecidableEq

/-- Mirrors the dataclass CleaningConfig with its five flags. -/
structure CleaningConfig where
  drop_duplicates : Bool
  trim_whitespace : Bool
  normalize_unicode : Bool
  remove_empty : Bool
  lower_keys : Bool
deriving DecidableEq

/-- Mirrors the dataclass ExportConfig (format, output_dir, filename). -/
structure ExportConfig where
  format : String
  output_dir : String
  filename : String
deriving DecidableEq

/-- Mirrors the dataclass AppConfig; the export field is rendered
exportCfg because export is reserved in Lean. -/
structure AppConfig where
  sources : List SourceConfig
  cleaning : CleaningConfig
  exportCfg : ExportConfig
deriving DecidableEq

/-- Default include patterns of SourceConfig. -/
def defaultInclude : List String := ["*.jsonl", "*.json", "*.csv"]

/-- The default SourceConfig, as built by SourceConfig(path="./data/raw"). -/
def defaultSourceConfig : SourceConfig := ⟨"./data/raw", defaultInclude⟩

/-- The default CleaningConfig: every flag true except lower_keys. -/
def defaultCleaningConfig : CleaningConfig := ⟨true, true, true, true, false⟩

/-- The default ExportConfig: parquet into ./data/processed/dataset. -/
def defaultExportConfig : ExportConfig := ⟨"parquet", "./data/processed", "dataset"⟩

/-- The all-defaults AppConfig, as built by AppConfig(). -/
def defaultAppConfig : AppConfig :=
  ⟨[defaultSourceConfig], defaultCleaningConfig, defaultExportConfig⟩

/-- Model of the expression data.get("sources") or data.get("source"):
Python or returns the right operand when the left is falsy or None. -/
def sourcesRaw (kvs : List (String × Yaml)) : Option Yaml :=
  match yget kvs "sources" with
  | some v => if truthy v then some v else yget kvs "source"
  | none => yget kvs "source"

/-- Model of list(v) coerced to the List[str] the dataclass declares:
a YAML list must consist of strings (Python would keep non-string
elements and crash later inside rglob; the model rejects them at this
point instead, which no claim exercises), a string lists its characters,
a dict lists its keys, and scalars raise TypeError as in Python. -/
def pyToStrList : Yaml → Except PipeErr (List String)
  | .list xs => xs.mapM (fun y => match y with
      | .str s => Except.ok s
      | _ => Except.error PipeErr.typeError)
  | .str s => Except.ok (s.data.map (fun c => String.mk [c]))
  | .dict kvs => Except.ok (kvs.map (fun kv => kv.1))
  | _ => Except.error PipeErr.typeError

/-- Model of building one SourceConfig from a source dict, as in the
loop body of load_config: path defaults to "./data/raw" through str(),
include defaults to the three patterns and otherwise goes through
list(). -/
def parseSourceDict (kvs : List (String × Yaml)) : Except PipeErr SourceConfig := do
  let inc ← match yget kvs "include" with
    | none => Except.ok defaultInclude
    | some v => pyToStrList v
  Except.ok ⟨pyStr (ygetD kvs "path" (Yaml.str "./data/raw")), inc⟩

/-- Model of the sources-parsing block of load_config: a list keeps
exactly its dict elements (non-dict elements are skipped), a single
dict becomes a one-element list, and anything else falls back to the
single default SourceConfig. -/
def parseSources : Option Yaml → Except PipeErr (List SourceConfig)
  | some (.list xs) => xs.foldlM (fun acc y => match y with
      | .dict kvs => do
          let sc ← parseSourceDict kvs
          Except.ok (acc ++ [sc])
      | _ => Except.ok acc) []
  | some (.dict kvs) => do
      let sc ← parseSourceDict kvs
      Except.ok [sc]
  | _ => Except.ok [defaultSourceConfig]

/-- Model of the cleaning-parsing block of load_config: the cleaning
value (or an empty dict if absent or falsy) must be a dict, and every
flag goes through bool() with its documented default. -/
def parseCleaning (kvs : List (String × Yaml)) : Except PipeErr CleaningConfig :=
  let clRaw := ygetD kvs "cleaning" (Yaml.dict [])
  let cl := if truthy clRaw then clRaw else Yaml.dict []
  match cl with
  | .dict ckvs => Except.ok
      ⟨truthy (ygetD ckvs "drop_duplicates" (Yaml.bool true)),
       truthy (ygetD ckvs "trim_whitespace" (Yaml.bool true)),
       truthy (ygetD ckvs "normalize_unicode" (Yaml.bool true)),
       truthy (ygetD ckvs "remove_empty" (Yaml.bool true)),
       truthy (ygetD ckvs "lower_keys" (Yaml.bool false))⟩
  | _ => Except.error PipeErr.attributeError

/-- Model of the export-parsing block of load_config: the export value
(or an empty dict if absent or falsy) must be a dict; format goes
through str() and then lower(), output_dir and filename through str(). -/
def parseExport (kvs : List (String × Yaml)) : Except PipeErr ExportConfig :=
  let exRaw := ygetD kvs "export" (Yaml.dict [])
  let ex := if truthy exRaw then exRaw else Yaml.dict []
  match ex with
  | .dict ekvs => Except.ok
      ⟨strLower (pyStr (ygetD ekvs "format" (Yaml.str "parquet"))),
       pyStr (ygetD ekvs "output_dir" (Yaml.str "./data/processed")),
       pyStr (ygetD ekvs "filename" (Yaml.str "dataset"))⟩
  | _ => Except.error PipeErr.attributeError

/-- Looks up the parse outcome recorded for a config path; none models a
nonexistent file. -/
def lookupConfig (cfgs : List (String × Parsed)) (p : String) : Option Parsed :=
  (cfgs.find? (fun c => c.1 == p)).map (fun c => c.2)

/-- Shallow embedding of load_config: no path returns AppConfig(), a
missing file raises FileNotFoundError, a parse failure raises, the
document (replaced by an empty dict when falsy, modelling the or-{}
idiom) must be a dict, and the three blocks are parsed in order. -/
def load_config (config_path : Option String) (fs : FS) : Except PipeErr AppConfig :=
  match config_path with
  | none => Except.ok defaultAppConfig
  | some p =>
    match lookupConfig fs.configs p with
    | none => Except.error (PipeErr.fileNotFound p)
    | some Parsed.bad => Except.error PipeErr.parseError
    | some (Parsed.ok v) =>
      let data := if truthy v then v else Yaml.dict []
      match data with
      | .dict kvs => do
          let ss ← parseSources (sourcesRaw kvs)
          let cl ← parseCleaning kvs
          let ex ← parseExport kvs
          Except.ok ⟨ss, cl, ex⟩
      | _ => Except.error PipeErr.attributeError

/-- Glob matching worker, structurally recursive on a fuel bound so that
every call reduces inside the kernel; each step shrinks the combined
length of pattern and name, so the initial fuel is never exhausted. -/
def globMatchAux : Nat → List Char → List Char → Bool
  | 0, _, _ => false
  | Nat.succ f, pat, n =>
    match pat, n with
    | [], m => m.isEmpty
    | '*' :: ps, [] => globMatchAux f ps []
    | '*' :: ps, c :: cs => globMatchAux f ps (c :: cs) || globMatchAux f ('*' :: ps) cs
    | '?' :: ps, _ :: cs => globMatchAux f ps cs
    | p :: ps, c :: cs => (p = c) && globMatchAux f ps cs
    | _ :: _, [] => false

/-- Glob matching of a pattern against a name, as fnmatch does for the
wildcards star (any run of characters) and question mark (any single
character); character classes are outside the model, which the include
patterns in play do not use. -/
def globMatch (pat n : List Char) : Bool :=
  globMatchAux (pat.length + n.length + 1) pat n

/-- Splits a character stream at slashes, accumulating the current
component reversed. -/
def splitComponents : List Char → List Char → List String
  | [], acc => [String.mk acc.reverse]
  | c :: cs, acc =>
      if c = '/' then String.mk acc.reverse :: splitComponents cs []
      else splitComponents cs (c :: acc)

/-- Splits a path string into its slash-separated components, as
Path(src.path) decomposes the source root. -/
def splitPath (s : String) : List String := splitComponents s.data []

/-- Renders a component list back to the full path string, the key Path
objects sort and deduplicate by. -/
def joinPath (cs : List String) : String := String.intercalate "/" cs

/-- Holds when a path lies strictly below the base directory, the region
rglob traverses. -/
def strictUnder (base : List String) (p : List String) : Bool :=
  base.isPrefixOf p && decide (base.length < p.length)

/-- Final component of a path, the name rglob matches a single-component
pattern against. -/
def lastName (p : List String) : String := p.getLastD ""

/-- Holds when an entry is yielded by base.rglob(pattern): strictly below
the base and with its final component matching the pattern. -/
def entryMatches (base : List String) (pat : String) (e : FSEntry) : Bool :=
  strictUnder base e.path && globMatch pat.data (lastName e.path).data

/-- Model of base.rglob(pattern) over the visible entries. -/
def rglobModel (entries : List FSEntry) (base : List String) (pat : String) : List FSEntry :=
  entries.filter (entryMatches base pat)

/-- Model of p.is_file(): true for regular files and for symlinks that
resolve to regular files, false for directories and symlinks to
directories. -/
def isFileKind : FileKind → Bool
  | .regularFile => true
  | .symlinkToFile => true
  | .directory => false
  | .symlinkToDir => false

/-- The hits list of collect_files before deduplication: every source,
every include pattern (a single catch-all when the include list is
empty), every rglob hit that is a file, rendered as its full path. -/
def collectHits (entries : List FSEntry) (sources : List SourceConfig) : List String :=
  sources.flatMap (fun src =>
    (if src.incl.isEmpty then ["*"] else src.incl).flatMap (fun pat =>
      ((rglobModel entries (splitPath src.path) pat).filter (fun e => isFileKind e.kind)).map
        (fun e => joinPath e.path)))

/-- Lexicographic order on full path strings, character by character:
the order Path objects sort by.  Defined through the standard
lexicographic extension of the character order to character lists. -/
def pathLt (s t : String) : Prop := List.Lex (· < ·) s.data t.data

instance pathLtDecidable : ∀ s t, Decidable (pathLt s t) := fun s t =>
  inferInstanceAs (Decidable (List.Lex (· < ·) s.data t.data))

instance pathLtIrreflInst : IsIrrefl String pathLt :=
  ⟨fun a => IsIrrefl.irrefl a.data⟩

instance pathLtAntisymmInst : IsAntisymm String pathLt :=
  ⟨fun a b h1 h2 => absurd h2 (IsAsymm.asymm a.data b.data h1)⟩

/-- Insertion into a strictly sorted list that skips an element already
present; folding it models sorted(set(..)). -/
def setInsert (x : String) : List String → List String
  | [] => [x]
  | y :: ys =>
      if pathLt x y then x :: y :: ys else if x = y then y :: ys else y :: setInsert x ys

/-- Model of sorted(set(l)): the strictly sorted duplicate-free list with
the same members as l. -/
def sortedSet (l : List String) : List String := l.foldr setInsert []

/-- Shallow embedding of collect_files: gather hits source by source and
pattern by pattern, then return sorted(set(hits)). -/
def collect_files (entries : List FSEntry) (sources : List SourceConfig) : List String :=
  sortedSet (collectHits entries sources)

/-- Scalar field values a record can hold; strings are kept as character
lists so the whitespace and normalization transforms are structural. -/
inductive Value where
  | null : Value
  | bool (b : Bool) : Value
  | num (n : Int) : Value
  | str (s : List Char) : Value
deriving DecidableEq

/-- One record: an ordered mapping from field name to value, field names
as character lists. -/
abbrev Record := List (List Char × Value)

/-- Lower-cases a field name character by character. -/
def mapLower (k : List Char) : List Char := k.map lowerChar

/-- Value of the last occurrence of a key, starting from a current value;
models the update half of Python dict construction. -/
def lastValue (k : List Char) (v : Value) : List (List Char × Value) → Value
  | [] => v
  | kv :: rest => if kv.1 = k then lastValue k kv.2 rest else lastValue k v rest

/-- Worker for the duplicate-key collapse, structurally recursive on a
fuel bound so that every call reduces inside the kernel; each step
drops at least one element, so fuel equal to the list length is never
exhausted. -/
def collapseKeysAux : Nat → List (List Char × Value) → List (List Char × Value)
  | 0, _ => []
  | Nat.succ f, l =>
    match l with
    | [] => []
    | (k, v) :: rest =>
        (k, lastValue k v rest) :: collapseKeysAux f (rest.filter (fun kv => kv.1 ≠ k))

/-- Collapses duplicate keys the way building a Python dict does: each
key keeps the position of its first occurrence and the value of its
last occurrence. -/
def collapseKeys (l : List (List Char × Value)) : List (List Char × Value) :=
  collapseKeysAux l.length l

/-- Modelled from the spec: the lower_keys transform of RecordCleaner
(not implemented in the source), rewriting every field name to
lowercase with last-write-wins on collisions. -/
def lowerRecord (r : Record) : Record :=
  collapseKeys (r.map (fun kv => (mapLower kv.1, kv.2)))

/-- Whitespace test used by the trim transform, covering the ASCII
whitespace characters str.strip removes. -/
def isWs (c : Char) : Bool :=
  (c = ' ') || (c = '\t') || (c = '\n') || (c = '\x0d') || (c = '\x0b') || (c = '\x0c')

/-- Drops leading whitespace. -/
def trimLeft (s : List Char) : List Char := s.dropWhile isWs

/-- Drops trailing whitespace. -/
def trimRight (s : List Char) : List Char := (s.reverse.dropWhile isWs).reverse

/-- Modelled from the spec: the trim_whitespace transform of
RecordCleaner (not implemented in the source), stripping leading and
trailing whitespace as str.strip does. -/
def pyStrip (s : List Char) : List Char := trimRight (trimLeft s)

/-- The combining acute accent, the decomposed half of the modelled
canonical composition pair. -/
def combiningAcute : Char := Char.ofNatAux 0x301 (Or.inl (by decide))

/-- Lowercase e with acute accent, the composed half of the modelled
canonical composition pair. -/
def eAcuteChar : Char := Char.ofNatAux 0xE9 (Or.inl (by decide))

/-- Modelled from the spec: the normalize_unicode transform of
RecordCleaner (not implemented in the source), NFC restricted to one
representative canonical composition (e followed by combining acute
composes to the precomposed letter); the full Unicode table is outside
the model and changes nothing structural. -/
def nfcModel : List Char → List Char
  | [] => []
  | [c] => [c]
  | c :: d :: rest =>
      if c = 'e' ∧ d = combiningAcute then eAcuteChar :: nfcModel rest
      else c :: nfcModel (d :: rest)

/-- Per-string cleaning: trim first, then normalize, in the fixed order
the spec gives. -/
def transformStr (opts : CleaningConfig) (s : List Char) : List Char :=
  let s1 := if opts.trim_whitespace then pyStrip s else s
  if opts.normalize_unicode then nfcModel s1 else s1

/-- Per-value cleaning: string values go through the string transforms,
other scalars are untouched. -/
def transformValue (opts : CleaningConfig) : Value → Value
  | .str s => .str (transformStr opts s)
  | v => v

/-- Applies a value transform to every field of a record, keeping keys. -/
def mapVals (f : Value → Value) (r : Record) : Record :=
  r.map (fun kv => (kv.1, f kv.2))

/-- Modelled from the spec: steps 1 to 3 of RecordCleaner.clean on one
record: lower_keys if enabled, then the per-value trim and
normalization transforms. -/
def applyRecord (opts : CleaningConfig) (r : Record) : Record :=
  mapVals (transformValue opts) (if opts.lower_keys then lowerRecord r else r)

/-- Emptiness of one value as the remove_empty step counts it: null and
the empty string are empty. -/
def isEmptyValue : Value → Bool
  | .null => true
  | .str s => s.isEmpty
  | _ => false

/-- A record survives remove_empty when some field holds a non-empty
value; a record with no fields at all is dropped. -/
def recordNonEmpty (r : Record) : Bool := r.any (fun kv => !isEmptyValue kv.2)

/-- Dedupe keeping the first occurrence, with the set of already seen
records made explicit. -/
def dedupe (seen : List Record) : List Record → List Record
  | [] => []
  | r :: rest => if r ∈ seen then dedupe seen rest else r :: dedupe (r :: seen) rest

/-- Modelled from the spec: RecordCleaner.clean (not implemented in the
source): the per-record transforms in their fixed order, then
remove_empty, then drop_duplicates keeping first occurrences. -/
def clean (records : List Record) (opts : CleaningConfig) : List Record :=
  let m := records.map (applyRecord opts)
  let e := if opts.remove_empty then m.filter recordNonEmpty else m
  if opts.drop_duplicates then dedupe [] e else e

/-- The three export formats the pipeline recognizes. -/
def recognizedFormats : List String := ["csv", "jsonl", "parquet"]

/-- Modelled from the spec: the exporter contract (not implemented in
the source): an unrecognized format fails before touching the
filesystem; a recognized one creates the output directory and writes
one file, returned as the list of written locations. -/
def exportRecords (ec : ExportConfig) (_recs : List Record) : Except PipeErr Unit × List String :=
  if ec.format ∈ recognizedFormats then
    (Except.ok (), [ec.output_dir, ec.output_dir ++ "/" ++ ec.filename ++ "." ++ ec.format])
  else (Except.error PipeErr.unrecognizedExportFormat, [])

/-- Modelled from the spec: the run driver (the source module only
prints a banner): resolve the configuration, discover files, load them
through an abstract per-format loader, clean, export; any error stops
the run with no writes performed. -/
def runPipeline (loader : List String → List Record) (config_path : Option String) (fs : FS) :
    Except PipeErr Unit × List String :=
  match load_config config_path fs with
  | .error e => (Except.error e, [])
  | .ok cfg =>
      let files := collect_files fs.entries cfg.sources
      let recs := clean (loader files) cfg.cleaning
      exportRecords cfg.exportCfg recs

/-- C1: resolving with no configuration document yields the all-defaults
AppConfig: one SourceSpec at "./data/raw" with the three include
patterns, all cleaning flags true except lower_keys, and parquet export
into "./data/processed" with filename "dataset". -/
theorem load_config_none_gives_defaults (fs : FS) :
    load_config none fs = Except.ok
      { sources := [{ path := "./data/raw", incl := ["*.jsonl", "*.json", "*.csv"] }],
        cleaning := { drop_duplicates := true, trim_whitespace := true,
                      normalize_unicode := true, remove_empty := true,
                      lower_keys := false },
        exportCfg := { format := "parquet", output_dir := "./data/processed",
                       filename := "dataset" } } :=
  rfl

theorem pathLt_trans {a b c : String} (h1 : pathLt a b) (h2 : pathLt b c) : pathLt a c :=
  IsTrans.trans a.data b.data c.data h1 h2

theorem pathLt_asymm {a b : String} (h : pathLt a b) : ¬ pathLt b a :=
  IsAsymm.asymm a.data b.data h

theorem pathLt_of_not_of_ne {a b : String} (h1 : ¬ pathLt a b) (h2 : a ≠ b) : pathLt b a := by
  rcases trichotomous_of (List.Lex (fun x y : Char => x < y)) a.data b.data with h | h | h
  · exact absurd h h1
  · cases a
    cases b
    simp only at h
    exact absurd (by rw [h]) h2
  · exact h

theorem mem_setInsert {x y : String} {l : List String} :
    y ∈ setInsert x l ↔ y = x ∨ y ∈ l := by
  induction l with
  | nil => simp [setInsert]
  | cons z zs ih =>
    have e : setInsert x (z :: zs) =
        if pathLt x z then x :: z :: zs else if x = z then z :: zs else z :: setInsert x zs := rfl
    by_cases h1 : pathLt x z
    · rw [e, if_pos h1, List.mem_cons, List.mem_cons]
    · by_cases h2 : x = z
      · subst h2
        rw [e, if_neg h1, if_pos rfl, List.mem_cons]
        tauto
      · rw [e, if_neg h1, if_neg h2, List.mem_cons, ih, List.mem_cons]
        tauto

theorem sorted_setInsert {x : String} {l : List String} (h : l.Sorted pathLt) :
    (setInsert x l).Sorted pathLt := by
  induction l with
  | nil => simp [setInsert]
  | cons z zs ih =>
    rw [List.sorted_cons] at h
    have e : setInsert x (z :: zs) =
        if pathLt x z then x :: z :: zs else if x = z then z :: zs else z :: setInsert x zs := rfl
    by_cases h1 : pathLt x z
    · rw [e, if_pos h1, List.sorted_cons]
      refine ⟨?_, List.sorted_cons.mpr h⟩
      intro b hb
      rcases List.mem_cons.mp hb with rfl | hb2
      · exact h1
      · exact pathLt_trans h1 (h.1 b hb2)
    · by_cases h2 : x = z
      · subst h2
        rw [e, if_neg h1, if_pos rfl]
        exact List.sorted_cons.mpr h
      · rw [e, if_neg h1, if_neg h2, List.sorted_cons]
        refine ⟨?_, ih h.2⟩
        intro b hb
        rcases mem_setInsert.mp hb with rfl | hb2
        · exact pathLt_of_not_of_ne h1 h2
        · exact h.1 b hb2

theorem sortedSet_sorted (l : List String) : (sortedSet l).Sorted pathLt := by
  induction l with
  | nil => exact List.sorted_nil
  | cons x xs ih => exact sorted_setInsert ih

theorem mem_sortedSet {y : String} {l : List String} : y ∈ sortedSet l ↔ y ∈ l := by
  induction l with
  | nil => simp [sortedSet]
  | cons x xs ih =>
    rw [show sortedSet (x :: xs) = setInsert x (sortedSet xs) from rfl, mem_setInsert, ih]
    simp [List.mem_cons]

theorem sortedSet_ext {l l2 : List String} (h : ∀ x, x ∈ l ↔ x ∈ l2) :
    sortedSet l = sortedSet l2 := by
  refine List.eq_of_perm_of_sorted ?_ (sortedSet_sorted l) (sortedSet_sorted l2)
  refine (List.perm_ext_iff_of_nodup (sortedSet_sorted l).nodup
    (sortedSet_sorted l2).nodup).mpr ?_
  intro a
  rw [mem_sortedSet, mem_sortedSet]
  exact h a

/-- C2: for every filesystem state and source list, collect_files returns
a sequence with no duplicate paths, totally ordered lexicographically by
full path (pathLt, the lexicographic character order on path strings). -/
theorem collect_files_sorted_and_nodup (entries : List FSEntry) (sources : List SourceConfig) :
    (collect_files entries sources).Sorted pathLt ∧ (collect_files entries sources).Nodup :=
  ⟨sortedSet_sorted _, (sortedSet_sorted _).nodup⟩

/-- C8: collect_files is a pure function of the directory tree and the
sources, and its result does not even depend on the enumeration order of
the tree: two runs over the same unchanged tree, however enumerated,
return the identical ordered sequence. -/
theorem collect_files_deterministic (e1 e2 : List FSEntry) (sources : List SourceConfig)
    (h : e1.Perm e2) :
    collect_files e1 sources = collect_files e2 sources := by
  unfold collect_files
  apply sortedSet_ext
  intro x
  simp [collectHits, rglobModel, List.mem_flatMap, List.mem_filter, List.mem_map, h.mem_iff]

/-- Witness for C8 on a concrete two-file tree enumerated in both
orders. -/
theorem collect_files_deterministic_witness :
    ([⟨[".", "data", "raw", "a.json"], FileKind.regularFile⟩,
      ⟨[".", "data", "raw", "b.csv"], FileKind.regularFile⟩] : List FSEntry).Perm
      [⟨[".", "data", "raw", "b.csv"], FileKind.regularFile⟩,
       ⟨[".", "data", "raw", "a.json"], FileKind.regularFile⟩] ∧
    collect_files
      [⟨[".", "data", "raw", "a.json"], FileKind.regularFile⟩,
       ⟨[".", "data", "raw", "b.csv"], FileKind.regularFile⟩] [defaultSourceConfig] =
    collect_files
      [⟨[".", "data", "raw", "b.csv"], FileKind.regularFile⟩,
       ⟨[".", "data", "raw", "a.json"], FileKind.regularFile⟩] [defaultSourceConfig] :=
  ⟨List.Perm.swap _ _ _,
   collect_files_deterministic _ _ _ (List.Perm.swap _ _ _)⟩

theorem flatMap_nil_of_all {α β : Type} (l : List α) (f : α → List β)
    (h : ∀ a ∈ l, f a = []) : l.flatMap f = [] := by
  induction l with
  | nil => rfl
  | cons a as ih =>
    rw [List.flatMap_cons, h a (List.mem_cons_self a as), List.nil_append]
    exact ih (fun b hb => h b (List.mem_cons_of_mem a hb))

/-- C7: a source whose root directory holds no entries (a nonexistent
root in particular), at any position in the source list, contributes
zero files and raises no error: the collection over the remaining
sources is unchanged, and discovery never writes (the embedding returns
paths without touching the tree). -/
theorem collect_files_missing_root (entries : List FSEntry) (s : SourceConfig)
    (pre post : List SourceConfig)
    (h : ∀ e ∈ entries, strictUnder (splitPath s.path) e.path = false) :
    collect_files entries (pre ++ s :: post) = collect_files entries (pre ++ post) := by
  unfold collect_files collectHits
  simp only [List.flatMap_append, List.flatMap_cons]
  have hglob : ∀ pat, rglobModel entries (splitPath s.path) pat = [] := by
    intro pat
    apply List.filter_eq_nil_iff.mpr
    intro e he
    simp [entryMatches, h e he]
  rw [flatMap_nil_of_all (if s.incl.isEmpty then ["*"] else s.incl)
      (fun pat => ((rglobModel entries (splitPath s.path) pat).filter
        (fun e => isFileKind e.kind)).map (fun e => joinPath e.path))
      (fun pat _ => by simp [hglob pat]), List.nil_append]

/-- Witness for C7: a source rooted at a directory absent from the tree
contributes nothing, here placed after a real source. -/
theorem collect_files_missing_root_witness :
    (∀ e ∈ ([⟨[".", "data", "raw", "a.json"], FileKind.regularFile⟩] : List FSEntry),
        strictUnder (splitPath "./missing") e.path = false) ∧
    collect_files [⟨[".", "data", "raw", "a.json"], FileKind.regularFile⟩]
        ([defaultSourceConfig] ++ ⟨"./missing", ["*.json"]⟩ :: []) =
    collect_files [⟨[".", "data", "raw", "a.json"], FileKind.regularFile⟩]
        ([defaultSourceConfig] ++ []) :=
  ⟨by decide,
   collect_files_missing_root [⟨[".", "data", "raw", "a.json"], FileKind.regularFile⟩]
     ⟨"./missing", ["*.json"]⟩ [defaultSourceConfig] [] (by decide)⟩

/-- C9: every path collect_files returns comes from an entry that
is_file accepts: a regular file or a symlink resolving to one, never a
directory nor a symlink resolving to a directory. -/
theorem collect_files_only_regular_files (entries : List FSEntry) (sources : List SourceConfig)
    (p : String) (h : p ∈ collect_files entries sources) :
    ∃ e, e ∈ entries ∧ joinPath e.path = p ∧
      (e.kind = FileKind.regularFile ∨ e.kind = FileKind.symlinkToFile) := by
  unfold collect_files at h
  rw [mem_sortedSet] at h
  simp only [collectHits, rglobModel, List.mem_flatMap, List.mem_filter, List.mem_map] at h
  obtain ⟨src, -, pat, -, e, ⟨⟨he, -⟩, hf⟩, rfl⟩ := h
  refine ⟨e, he, rfl, ?_⟩
  cases hk : e.kind
  · exact Or.inl rfl
  · rw [hk] at hf
    exact absurd hf (by simp [isFileKind])
  · exact Or.inr rfl
  · rw [hk] at hf
    exact absurd hf (by simp [isFileKind])

/-- Witness for C9 on a tree holding a matching regular file next to a
matching directory: the returned path resolves to the file entry. -/
theorem collect_files_only_regular_files_witness :
    ("./data/raw/a.json" ∈ collect_files
        [⟨[".", "data", "raw", "a.json"], FileKind.regularFile⟩,
         ⟨[".", "data", "raw", "d.json"], FileKind.directory⟩] [defaultSourceConfig]) ∧
    (∃ e, e ∈ ([⟨[".", "data", "raw", "a.json"], FileKind.regularFile⟩,
                ⟨[".", "data", "raw", "d.json"], FileKind.directory⟩] : List FSEntry) ∧
       joinPath e.path = "./data/raw/a.json" ∧
       (e.kind = FileKind.regularFile ∨ e.kind = FileKind.symlinkToFile)) :=
  ⟨by decide,
   collect_files_only_regular_files
     [⟨[".", "data", "raw", "a.json"], FileKind.regularFile⟩,
      ⟨[".", "data", "raw", "d.json"], FileKind.directory⟩]
     [defaultSourceConfig] "./data/raw/a.json" (by decide)⟩

/-- C6: a configuration path that refers to no existing file makes
resolve fail with the FileNotFoundError, and the run stops there: no
discovery, cleaning or export happens and nothing is written. -/
theorem load_config_missing_config_fails (fs : FS) (loader : List String → List Record)
    (p : String) (h : lookupConfig fs.configs p = none) :
    load_config (some p) fs = Except.error (PipeErr.fileNotFound p) ∧
    runPipeline loader (some p) fs = (Except.error (PipeErr.fileNotFound p), []) := by
  have h1 : load_config (some p) fs = Except.error (PipeErr.fileNotFound p) := by
    simp only [load_config, h]
  refine ⟨h1, ?_⟩
  unfold runPipeline
  rw [h1]

/-- Witness for C6 on a filesystem whose only config file has another
name. -/
theorem load_config_missing_config_fails_witness :
    lookupConfig (FS.mk [("other.yaml", Parsed.ok Yaml.null)] []).configs "config.yaml" = none ∧
    (load_config (some "config.yaml") ⟨[("other.yaml", Parsed.ok Yaml.null)], []⟩ =
        Except.error (PipeErr.fileNotFound "config.yaml") ∧
      runPipeline (fun _ => []) (some "config.yaml") ⟨[("other.yaml", Parsed.ok Yaml.null)], []⟩ =
        (Except.error (PipeErr.fileNotFound "config.yaml"), [])) :=
  ⟨rfl, load_config_missing_config_fails ⟨[("other.yaml", Parsed.ok Yaml.null)], []⟩
    (fun _ => []) "config.yaml" rfl⟩

/-- C3: when the resolved configuration carries an export format outside
the three recognized values, the run fails with the
unrecognized-export-format error and the write trace is empty: nothing
is written anywhere. -/
theorem unrecognized_format_fails_before_any_write (fs : FS)
    (loader : List String → List Record) (config_path : Option String) (cfg : AppConfig)
    (hload : load_config config_path fs = Except.ok cfg)
    (hfmt : cfg.exportCfg.format ∉ recognizedFormats) :
    runPipeline loader config_path fs = (Except.error PipeErr.unrecognizedExportFormat, []) := by
  unfold runPipeline
  rw [hload]
  show exportRecords cfg.exportCfg
      (clean (loader (collect_files fs.entries cfg.sources)) cfg.cleaning) = _
  unfold exportRecords
  rw [if_neg hfmt]

/-- Witness for C3: a document requesting format xml loads fine (the
format is only lower-cased) and then stops the run with the
configuration error before any write. -/
theorem unrecognized_format_fails_before_any_write_witness :
    load_config (some "cfg.yaml")
        ⟨[("cfg.yaml", Parsed.ok (Yaml.dict [("export", Yaml.dict [("format", Yaml.str "xml")])]))],
         []⟩ =
      Except.ok ⟨[defaultSourceConfig], defaultCleaningConfig,
        ⟨"xml", "./data/processed", "dataset"⟩⟩ ∧
    (⟨[defaultSourceConfig], defaultCleaningConfig,
        ⟨"xml", "./data/processed", "dataset"⟩⟩ : AppConfig).exportCfg.format ∉
      recognizedFormats ∧
    runPipeline (fun _ => []) (some "cfg.yaml")
        ⟨[("cfg.yaml", Parsed.ok (Yaml.dict [("export", Yaml.dict [("format", Yaml.str "xml")])]))],
         []⟩ =
      (Except.error PipeErr.unrecognizedExportFormat, []) :=
  ⟨rfl, by decide,
   unrecognized_format_fails_before_any_write
     ⟨[("cfg.yaml", Parsed.ok (Yaml.dict [("export", Yaml.dict [("format", Yaml.str "xml")])]))],
      []⟩
     (fun _ => []) (some "cfg.yaml")
     ⟨[defaultSourceConfig], defaultCleaningConfig, ⟨"xml", "./data/processed", "dataset"⟩⟩
     rfl (by decide)⟩

/-- C10: a config document that exists and parses to a falsy structure
(null from an empty file, an empty dict, an empty list) resolves exactly
like passing no document at all. -/
theorem empty_config_equals_no_config (fs : FS) (p : String) (v : Yaml)
    (hlk : lookupConfig fs.configs p = some (Parsed.ok v))
    (hfalsy : truthy v = false) :
    load_config (some p) fs = load_config none fs := by
  simp only [load_config, hlk, hfalsy, Bool.false_eq_true, if_false]
  rfl

/-- Witness for C10 on a config file parsing to null. -/
theorem empty_config_equals_no_config_witness :
    lookupConfig (FS.mk [("empty.yaml", Parsed.ok Yaml.null)] []).configs "empty.yaml" =
      some (Parsed.ok Yaml.null) ∧
    truthy Yaml.null = false ∧
    load_config (some "empty.yaml") ⟨[("empty.yaml", Parsed.ok Yaml.null)], []⟩ =
      load_config none ⟨[("empty.yaml", Parsed.ok Yaml.null)], []⟩ :=
  ⟨rfl, rfl,
   empty_config_equals_no_config ⟨[("empty.yaml", Parsed.ok Yaml.null)], []⟩
     "empty.yaml" Yaml.null rfl rfl⟩

/-- Counterexample to C4 as stated: a sources value that is a list
holding only non-object entries produces an empty sources list, not the
single default SourceSpec the claim requires. -/
theorem sources_nonobject_list_counterexample :
    (load_config (some "cfg.yaml")
        ⟨[("cfg.yaml", Parsed.ok (Yaml.dict [("sources", Yaml.list [Yaml.str "foo"])]))],
         []⟩).map AppConfig.sources = Except.ok ([] : List SourceConfig) ∧
    ([] : List SourceConfig) ≠ [defaultSourceConfig] :=
  ⟨rfl, by decide⟩

theorem pipe_bind_ok {α β : Type} (a : α) (f : α → Except PipeErr β) :
    ((Except.ok a : Except PipeErr α) >>= f) = f a := rfl

theorem pipe_bind_error {α β : Type} (e : PipeErr) (f : α → Except PipeErr β) :
    ((Except.error e : Except PipeErr α) >>= f) = Except.error e := rfl

/-- C4 (amended): when the sources (or source) key resolves to a value
that is neither a list nor an object (including the absent case), a
successful resolve falls back to exactly one default SourceSpec at the
default raw-data path; the original claim fails for a list of
non-object entries, which yields an empty sources list instead. -/
theorem sources_fallback_default (fs : FS) (p : String) (kvs : List (String × Yaml))
    (cfg : AppConfig)
    (hlk : lookupConfig fs.configs p = some (Parsed.ok (Yaml.dict kvs)))
    (hsr : ((sourcesRaw kvs).all fun v => !v.isList && !v.isDict) = true)
    (hok : load_config (some p) fs = Except.ok cfg) :
    cfg.sources = [defaultSourceConfig] := by
  simp only [load_config, hlk] at hok
  have hps : parseSources (sourcesRaw kvs) = Except.ok [defaultSourceConfig] := by
    rcases hv : sourcesRaw kvs with - | v
    · rfl
    · rw [hv] at hsr
      simp only [Option.all] at hsr
      cases v
      · rfl
      · rfl
      · rfl
      · rfl
      · simp [Yaml.isList] at hsr
      · simp [Yaml.isDict] at hsr
  by_cases ht : truthy (Yaml.dict kvs) = true
  · rw [if_pos ht] at hok
    replace hok : (do
        let ss ← parseSources (sourcesRaw kvs)
        let cl ← parseCleaning kvs
        let ex ← parseExport kvs
        Except.ok (AppConfig.mk ss cl ex)) = Except.ok cfg := hok
    rw [hps, pipe_bind_ok] at hok
    rcases hc : parseCleaning kvs with ec | cl
    · rw [hc, pipe_bind_error] at hok
      exact absurd hok (by simp)
    · rw [hc, pipe_bind_ok] at hok
      rcases he : parseExport kvs with ee | ex
      · rw [he, pipe_bind_error] at hok
        exact absurd hok (by simp)
      · rw [he, pipe_bind_ok] at hok
        injection hok with h2
        rw [← h2]
  · rw [if_neg ht] at hok
    replace hok : Except.ok defaultAppConfig = Except.ok cfg := hok
    injection hok with h2
    rw [← h2]
    rfl

/-- Witness for C4 on a document whose sources value is the number 5:
neither a list nor an object, so the single default source is used. -/
theorem sources_fallback_default_witness :
    lookupConfig
        (FS.mk [("c.yaml", Parsed.ok (Yaml.dict [("sources", Yaml.num 5)]))] []).configs
        "c.yaml" = some (Parsed.ok (Yaml.dict [("sources", Yaml.num 5)])) ∧
    ((sourcesRaw [("sources", Yaml.num 5)]).all fun v => !v.isList && !v.isDict) = true ∧
    load_config (some "c.yaml")
        ⟨[("c.yaml", Parsed.ok (Yaml.dict [("sources", Yaml.num 5)]))], []⟩ =
      Except.ok defaultAppConfig ∧
    defaultAppConfig.sources = [defaultSourceConfig] :=
  ⟨rfl, rfl, rfl,
   sources_fallback_default
     ⟨[("c.yaml", Parsed.ok (Yaml.dict [("sources", Yaml.num 5)]))], []⟩
     "c.yaml" [("sources", Yaml.num 5)] defaultAppConfig rfl rfl rfl⟩

theorem lowerChar_toNat_of_upper {c : Char} (h : 65 ≤ c.toNat ∧ c.toNat ≤ 90) :
    (lowerChar c).toNat = c.toNat + 32 := by
  unfold lowerChar
  rw [dif_pos h]
  rfl

theorem lowerChar_eq_self_of_not {c : Char} (h : ¬(65 ≤ c.toNat ∧ c.toNat ≤ 90)) :
    lowerChar c = c := by
  unfold lowerChar
  rw [dif_neg h]

theorem lowerChar_idem (c : Char) : lowerChar (lowerChar c) = lowerChar c := by
  by_cases h : 65 ≤ c.toNat ∧ c.toNat ≤ 90
  · have h2 : ¬(65 ≤ (lowerChar c).toNat ∧ (lowerChar c).toNat ≤ 90) := by
      rw [lowerChar_toNat_of_upper h]
      omega
    exact lowerChar_eq_self_of_not h2
  · rw [lowerChar_eq_self_of_not h]
    exact lowerChar_eq_self_of_not h

theorem mapLower_idem (k : List Char) : mapLower (mapLower k) = mapLower k := by
  simp [mapLower, List.map_map, Function.comp_def, lowerChar_idem]

theorem lastValue_eq_of_not_mem {k : List Char} {v : Value}
    {l : List (List Char × Value)} (h : ∀ kv ∈ l, kv.1 ≠ k) : lastValue k v l = v := by
  induction l with
  | nil => rfl
  | cons kv rest ih =>
    unfold lastValue
    rw [if_neg (h kv (List.mem_cons_self kv rest))]
    exact ih (fun kv2 h2 => h kv2 (List.mem_cons_of_mem kv h2))

theorem collapseKeysAux_congr : ∀ (n : Nat) (l : List (List Char × Value)) (f1 f2 : Nat),
    l.length ≤ n → l.length ≤ f1 → l.length ≤ f2 →
    collapseKeysAux f1 l = collapseKeysAux f2 l := by
  intro n
  induction n with
  | zero =>
    intro l f1 f2 h0 h1 h2
    match l with
    | [] => cases f1 <;> cases f2 <;> rfl
    | kv :: rest => simp at h0
  | succ n ih =>
    intro l f1 f2 h0 h1 h2
    match l with
    | [] => cases f1 <;> cases f2 <;> rfl
    | (k, v) :: rest =>
      match f1, f2 with
      | Nat.succ g1, Nat.succ g2 =>
        show (k, lastValue k v rest) ::
            collapseKeysAux g1 (rest.filter (fun kv => kv.1 ≠ k)) =
          (k, lastValue k v rest) ::
            collapseKeysAux g2 (rest.filter (fun kv => kv.1 ≠ k))
        congr 1
        have hf : (rest.filter (fun kv => kv.1 ≠ k)).length ≤ rest.length :=
          List.length_filter_le _ _
        apply ih
        · simp at h0
          omega
        · simp at h1
          omega
        · simp at h2
          omega
      | 0, _ => simp at h1
      | Nat.succ g1, 0 => simp at h2

theorem collapseKeys_nil : collapseKeys [] = [] := rfl

theorem collapseKeys_cons (k : List Char) (v : Value) (rest : List (List Char × Value)) :
    collapseKeys ((k, v) :: rest) =
      (k, lastValue k v rest) :: collapseKeys (rest.filter (fun kv => kv.1 ≠ k)) := by
  show (k, lastValue k v rest) ::
      collapseKeysAux rest.length (rest.filter (fun kv => kv.1 ≠ k)) =
    (k, lastValue k v rest) ::
      collapseKeysAux (rest.filter (fun kv => kv.1 ≠ k)).length
        (rest.filter (fun kv => kv.1 ≠ k))
  congr 1
  exact collapseKeysAux_congr rest.length _ _ _ (List.length_filter_le _ _)
    (List.length_filter_le _ _) (le_refl _)

theorem collapseKeys_rec (P : List (List Char × Value) → Prop)
    (h0 : P [])
    (h1 : ∀ k v rest, P (rest.filter (fun kv => kv.1 ≠ k)) → P ((k, v) :: rest)) :
    ∀ l, P l := by
  have key : ∀ n l, l.length ≤ n → P l := by
    intro n
    induction n with
    | zero =>
      intro l hl
      match l with
      | [] => exact h0
      | kv :: rest => simp at hl
    | succ n ih =>
      intro l hl
      match l with
      | [] => exact h0
      | (k, v) :: rest =>
        apply h1
        apply ih
        have hf : (rest.filter (fun kv => kv.1 ≠ k)).length ≤ rest.length :=
          List.length_filter_le _ _
        simp at hl
        omega
  intro l
  exact key l.length l (le_refl _)

theorem collapseKeys_keys_subset {l : List (List Char × Value)} :
    ∀ x, x ∈ (collapseKeys l).map Prod.fst → x ∈ l.map Prod.fst := by
  induction l using collapseKeys_rec with
  | h0 =>
    intro x hx
    rw [collapseKeys_nil] at hx
    simp at hx
  | h1 k v rest ih =>
    intro x hx
    rw [collapseKeys_cons] at hx
    rw [List.map_cons, List.mem_cons] at hx
    rcases hx with rfl | hx
    · exact List.mem_cons_self _ _
    · have h2 := ih x hx
      rw [List.mem_map] at h2
      obtain ⟨kv, hkv, rfl⟩ := h2
      exact List.mem_cons_of_mem _ (List.mem_map_of_mem Prod.fst (List.mem_of_mem_filter hkv))

theorem collapseKeys_keys_nodup (l : List (List Char × Value)) :
    ((collapseKeys l).map Prod.fst).Nodup := by
  induction l using collapseKeys_rec with
  | h0 =>
    rw [collapseKeys_nil]
    simp
  | h1 k v rest ih =>
    rw [collapseKeys_cons]
    rw [List.map_cons, List.nodup_cons]
    refine ⟨?_, ih⟩
    intro hk
    have h2 := collapseKeys_keys_subset k hk
    rw [List.mem_map] at h2
    obtain ⟨kv, hkv, hfst⟩ := h2
    have := List.of_mem_filter hkv
    rw [hfst] at this
    simp at this

theorem collapseKeys_eq_self {l : List (List Char × Value)}
    (h : (l.map Prod.fst).Nodup) : collapseKeys l = l := by
  induction l with
  | nil => rw [collapseKeys_nil]
  | cons kv rest ih =>
    obtain ⟨k, v⟩ := kv
    rw [List.map_cons, List.nodup_cons] at h
    rw [collapseKeys_cons]
    have hne : ∀ kv ∈ rest, kv.1 ≠ k := by
      intro kv2 h2 heq
      exact h.1 (List.mem_map.mpr ⟨kv2, h2, heq⟩)
    rw [lastValue_eq_of_not_mem hne]
    have hfl : rest.filter (fun kv => kv.1 ≠ k) = rest := by
      rw [List.filter_eq_self]
      intro kv2 h2
      simpa using hne kv2 h2
    rw [hfl, ih h.2]

theorem map_fixed {α : Type} {l : List α} {f : α → α} (h : ∀ x ∈ l, f x = x) :
    l.map f = l := by
  induction l with
  | nil => rfl
  | cons a as ih =>
    rw [List.map_cons, h a (List.mem_cons_self a as),
      ih (fun x hx => h x (List.mem_cons_of_mem a hx))]

theorem lowerRecord_keys_lower {r : Record} :
    ∀ x ∈ (lowerRecord r).map Prod.fst, mapLower x = x := by
  intro x hx
  have h2 := collapseKeys_keys_subset x hx
  rw [List.map_map, List.mem_map] at h2
  obtain ⟨kv, hkv, rfl⟩ := h2
  exact mapLower_idem kv.1

theorem lowerRecord_keys_nodup (r : Record) : ((lowerRecord r).map Prod.fst).Nodup :=
  collapseKeys_keys_nodup _

theorem lowerRecord_eq_self {r : Record}
    (hl : ∀ x ∈ r.map Prod.fst, mapLower x = x)
    (hn : (r.map Prod.fst).Nodup) : lowerRecord r = r := by
  unfold lowerRecord
  have hmap : r.map (fun kv => (mapLower kv.1, kv.2)) = r := by
    apply map_fixed
    intro kv hkv
    obtain ⟨k, v⟩ := kv
    have hk : mapLower k = k := hl k (List.mem_map.mpr ⟨(k, v), hkv, rfl⟩)
    rw [hk]
  rw [hmap]
  exact collapseKeys_eq_self hn

theorem lowerRecord_idem (r : Record) : lowerRecord (lowerRecord r) = lowerRecord r :=
  lowerRecord_eq_self lowerRecord_keys_lower (lowerRecord_keys_nodup r)

theorem dropWhile_head_false {p : Char → Bool} {l : List Char} {a : Char} {as : List Char}
    (h : l.dropWhile p = a :: as) : p a = false := by
  induction l with
  | nil => simp [List.dropWhile] at h
  | cons b bs ih =>
    rw [List.dropWhile_cons] at h
    by_cases hb : p b = true
    · rw [if_pos hb] at h
      exact ih h
    · rw [if_neg hb] at h
      injection h with h1 h2
      rw [← h1]
      exact Bool.eq_false_iff.mpr hb

theorem dropWhile_cons_false {p : Char → Bool} {a : Char} {l : List Char} (h : p a = false) :
    (a :: l).dropWhile p = a :: l := by
  rw [List.dropWhile_cons, if_neg (by simp [h])]

theorem dropWhile_idem (p : Char → Bool) (l : List Char) :
    (l.dropWhile p).dropWhile p = l.dropWhile p := by
  cases hd : l.dropWhile p with
  | nil => rfl
  | cons a as => exact dropWhile_cons_false (dropWhile_head_false hd)

theorem trimLeft_idem (l : List Char) : trimLeft (trimLeft l) = trimLeft l :=
  dropWhile_idem _ _

theorem trimRight_idem (l : List Char) : trimRight (trimRight l) = trimRight l := by
  unfold trimRight
  rw [List.reverse_reverse, dropWhile_idem]

theorem trimRight_prefix (l : List Char) : trimRight l <+: l := by
  obtain ⟨t, ht⟩ := @List.dropWhile_suffix _ l.reverse isWs
  refine ⟨t.reverse, ?_⟩
  show trimRight l ++ t.reverse = l
  unfold trimRight
  rw [← List.reverse_append, ht, List.reverse_reverse]

theorem trimLeft_trimRight_trimLeft (l : List Char) :
    trimLeft (trimRight (trimLeft l)) = trimRight (trimLeft l) := by
  cases hd : trimRight (trimLeft l) with
  | nil => rfl
  | cons a as =>
    obtain ⟨t, ht⟩ := trimRight_prefix (trimLeft l)
    rw [hd] at ht
    have hfalse : isWs a = false := by
      have hl : l.dropWhile isWs = a :: (as ++ t) := by
        show trimLeft l = a :: (as ++ t)
        rw [← ht, List.cons_append]
      exact dropWhile_head_false hl
    exact dropWhile_cons_false hfalse

theorem pyStrip_idem (l : List Char) : pyStrip (pyStrip l) = pyStrip l := by
  unfold pyStrip
  rw [trimLeft_trimRight_trimLeft]
  exact trimRight_idem _

theorem nfcModel_nil : nfcModel [] = [] := by
  rw [nfcModel]

theorem nfcModel_single (c : Char) : nfcModel [c] = [c] := by
  rw [nfcModel]

theorem nfcModel_cons_cons (c d : Char) (rest : List Char) :
    nfcModel (c :: d :: rest) =
      if c = 'e' ∧ d = combiningAcute then eAcuteChar :: nfcModel rest
      else c :: nfcModel (d :: rest) := by
  rw [nfcModel]

theorem nfcModel_ne_nil {l : List Char} (h : l ≠ []) : nfcModel l ≠ [] := by
  match l with
  | [c] =>
    rw [nfcModel_single]
    simp
  | c :: d :: rest =>
    rw [nfcModel_cons_cons]
    by_cases hm : c = 'e' ∧ d = combiningAcute
    · rw [if_pos hm]
      simp
    · rw [if_neg hm]
      simp

theorem nfcModel_cons_of_ne {c : Char} {l : List Char}
    (h : ¬(c = 'e' ∧ l.head? = some combiningAcute)) :
    nfcModel (c :: l) = c :: nfcModel l := by
  match l with
  | [] => rw [nfcModel_single, nfcModel_nil]
  | d :: rest =>
    rw [nfcModel_cons_cons, if_neg]
    intro hcd
    exact h ⟨hcd.1, by rw [List.head?_cons, hcd.2]⟩

theorem nfcModel_head? {l : List Char} {x : Char} (h : (nfcModel l).head? = some x) :
    x = eAcuteChar ∨ l.head? = some x := by
  match l with
  | [] =>
    rw [nfcModel_nil] at h
    simp at h
  | [c] =>
    rw [nfcModel_single] at h
    exact Or.inr h
  | c :: d :: rest =>
    rw [nfcModel_cons_cons] at h
    by_cases hm : c = 'e' ∧ d = combiningAcute
    · rw [if_pos hm, List.head?_cons] at h
      injection h with h1
      exact Or.inl h1.symm
    · rw [if_neg hm, List.head?_cons] at h
      rw [List.head?_cons]
      exact Or.inr h

theorem getLast?_cons_of_ne_nil {α : Type} (a : α) {t : List α} (h : t ≠ []) :
    (a :: t).getLast? = t.getLast? := by
  cases t with
  | nil => exact absurd rfl h
  | cons b bs => rfl

theorem nfcModel_getLast? {l : List Char} {x : Char} (h : (nfcModel l).getLast? = some x) :
    x = eAcuteChar ∨ l.getLast? = some x := by
  induction l using nfcModel.induct with
  | case1 =>
    rw [nfcModel_nil] at h
    simp at h
  | case2 c =>
    rw [nfcModel_single] at h
    exact Or.inr h
  | case3 c d rest hm ih =>
    rw [nfcModel_cons_cons, if_pos hm] at h
    by_cases hr : nfcModel rest = []
    · rw [hr] at h
      injection h with h1
      exact Or.inl h1.symm
    · rw [getLast?_cons_of_ne_nil eAcuteChar hr] at h
      rcases ih h with h1 | h2
      · exact Or.inl h1
      · have hrest : rest ≠ [] := by
          intro hr0
          rw [hr0, nfcModel_nil] at hr
          exact hr rfl
        right
        rw [getLast?_cons_of_ne_nil c (by simp), getLast?_cons_of_ne_nil d hrest]
        exact h2
  | case4 c d rest hm ih =>
    rw [nfcModel_cons_cons, if_neg hm] at h
    have hne : nfcModel (d :: rest) ≠ [] := nfcModel_ne_nil (by simp)
    rw [getLast?_cons_of_ne_nil c hne] at h
    rcases ih h with h1 | h2
    · exact Or.inl h1
    · right
      rw [getLast?_cons_of_ne_nil c (by simp)]
      exact h2

theorem nfcModel_idem (l : List Char) : nfcModel (nfcModel l) = nfcModel l := by
  induction l using nfcModel.induct with
  | case1 => rw [nfcModel_nil, nfcModel_nil]
  | case2 c => rw [nfcModel_single, nfcModel_single]
  | case3 c d rest hm ih =>
    rw [nfcModel_cons_cons, if_pos hm]
    rw [nfcModel_cons_of_ne (by rintro ⟨h1, -⟩; exact absurd h1 (by decide))]
    rw [ih]
  | case4 c d rest hm ih =>
    rw [nfcModel_cons_cons, if_neg hm]
    have hne2 : ¬(c = 'e' ∧ (nfcModel (d :: rest)).head? = some combiningAcute) := by
      rintro ⟨rfl, hhd⟩
      rcases nfcModel_head? hhd with h1 | h2
      · exact absurd h1 (by decide)
      · rw [List.head?_cons] at h2
        injection h2 with h3
        exact hm ⟨rfl, h3⟩
    rw [nfcModel_cons_of_ne hne2, ih]

theorem trimLeft_eq_self_of_head {l : List Char}
    (h : ∀ x, l.head? = some x → isWs x = false) : trimLeft l = l := by
  cases l with
  | nil => rfl
  | cons a as => exact dropWhile_cons_false (h a rfl)

theorem trimRight_eq_self_of_getLast {l : List Char}
    (h : ∀ x, l.getLast? = some x → isWs x = false) : trimRight l = l := by
  unfold trimRight
  have h2 : l.reverse.dropWhile isWs = l.reverse := by
    cases hr : l.reverse with
    | nil => rfl
    | cons a as =>
      apply dropWhile_cons_false
      apply h
      rw [← List.head?_reverse, hr]
      rfl
  rw [h2, List.reverse_reverse]

theorem pyStrip_parts {l : List Char} (h : pyStrip l = l) :
    trimLeft l = l ∧ trimRight l = l := by
  have hlen1 : (trimRight (trimLeft l)).length ≤ (trimLeft l).length := by
    unfold trimRight
    rw [List.length_reverse]
    calc ((trimLeft l).reverse.dropWhile isWs).length
        ≤ (trimLeft l).reverse.length := (List.dropWhile_sublist isWs).length_le
      _ = (trimLeft l).length := List.length_reverse _
  have hlen2 : (trimLeft l).length ≤ l.length := (List.dropWhile_sublist isWs).length_le
  have hl0 : (trimRight (trimLeft l)).length = l.length := by
    rw [show trimRight (trimLeft l) = pyStrip l from rfl, h]
  have hTL : trimLeft l = l := by
    have hsuf : List.Sublist (trimLeft l) l := List.dropWhile_sublist isWs
    exact hsuf.eq_of_length (by omega)
  refine ⟨hTL, ?_⟩
  rw [show pyStrip l = trimRight (trimLeft l) from rfl, hTL] at h
  exact h

theorem head_not_ws_of_trimLeft_eq {l : List Char} (h : trimLeft l = l) :
    ∀ x, l.head? = some x → isWs x = false := by
  intro x hx
  cases l with
  | nil => simp at hx
  | cons a as =>
    rw [List.head?_cons] at hx
    injection hx with h1
    subst h1
    by_cases hw : isWs a = true
    · exfalso
      rw [show trimLeft (a :: as) = as.dropWhile isWs from by
        show (a :: as).dropWhile isWs = _
        rw [List.dropWhile_cons, if_pos hw]] at h
      have hle : (as.dropWhile isWs).length ≤ as.length :=
        (List.dropWhile_sublist isWs).length_le
      rw [h] at hle
      simp at hle
    · exact Bool.eq_false_iff.mpr hw

theorem getLast_not_ws_of_trimRight_eq {l : List Char} (h : trimRight l = l) :
    ∀ x, l.getLast? = some x → isWs x = false := by
  intro x hx
  have h2 : trimLeft l.reverse = l.reverse := by
    have h3 := congrArg List.reverse h
    rw [show (trimRight l).reverse = l.reverse.dropWhile isWs from by
      unfold trimRight
      rw [List.reverse_reverse]] at h3
    exact h3
  apply head_not_ws_of_trimLeft_eq h2
  rw [List.head?_reverse]
  exact hx

theorem pyStrip_nfcModel_of_stripped {w : List Char} (h : pyStrip w = w) :
    pyStrip (nfcModel w) = nfcModel w := by
  obtain ⟨hTL, hTR⟩ := pyStrip_parts h
  have hHead := head_not_ws_of_trimLeft_eq hTL
  have hLast := getLast_not_ws_of_trimRight_eq hTR
  have h1 : trimLeft (nfcModel w) = nfcModel w := by
    apply trimLeft_eq_self_of_head
    intro x hx
    rcases nfcModel_head? hx with rfl | h2
    · decide
    · exact hHead x h2
  have h2 : trimRight (nfcModel w) = nfcModel w := by
    apply trimRight_eq_self_of_getLast
    intro x hx
    rcases nfcModel_getLast? hx with rfl | h2
    · decide
    · exact hLast x h2
  show trimRight (trimLeft (nfcModel w)) = nfcModel w
  rw [h1, h2]

theorem transformStr_idem (opts : CleaningConfig) (s : List Char) :
    transformStr opts (transformStr opts s) = transformStr opts s := by
  unfold transformStr
  by_cases ht : opts.trim_whitespace = true
  · by_cases hn : opts.normalize_unicode = true
    · simp only [if_pos ht, if_pos hn]
      rw [pyStrip_nfcModel_of_stripped (pyStrip_idem s), nfcModel_idem]
    · simp only [if_pos ht, if_neg hn]
      exact pyStrip_idem s
  · by_cases hn : opts.normalize_unicode = true
    · simp only [if_neg ht, if_pos hn]
      exact nfcModel_idem s
    · simp only [if_neg ht, if_neg hn]

theorem transformValue_idem (opts : CleaningConfig) (v : Value) :
    transformValue opts (transformValue opts v) = transformValue opts v := by
  cases v with
  | str s =>
    show Value.str (transformStr opts (transformStr opts s)) = Value.str (transformStr opts s)
    rw [transformStr_idem]
  | null => rfl
  | bool b => rfl
  | num n => rfl

theorem mapVals_keys (f : Value → Value) (r : Record) :
    (mapVals f r).map Prod.fst = r.map Prod.fst := by
  simp [mapVals, List.map_map, Function.comp_def]

theorem mapVals_idem {f : Value → Value} (hf : ∀ v, f (f v) = f v) (r : Record) :
    mapVals f (mapVals f r) = mapVals f r := by
  simp [mapVals, List.map_map, Function.comp_def, hf]

theorem applyRecord_idem (opts : CleaningConfig) (r : Record) :
    applyRecord opts (applyRecord opts r) = applyRecord opts r := by
  unfold applyRecord
  by_cases hl : opts.lower_keys = true
  · simp only [if_pos hl]
    have hfix : lowerRecord (mapVals (transformValue opts) (lowerRecord r)) =
        mapVals (transformValue opts) (lowerRecord r) := by
      apply lowerRecord_eq_self
      · intro x hx
        rw [mapVals_keys] at hx
        exact lowerRecord_keys_lower x hx
      · rw [mapVals_keys]
        exact lowerRecord_keys_nodup r
    rw [hfix, mapVals_idem (transformValue_idem opts)]
  · simp only [if_neg hl]
    exact mapVals_idem (transformValue_idem opts) r

theorem mem_of_mem_dedupe {x : Record} {seen l : List Record} (h : x ∈ dedupe seen l) :
    x ∈ l := by
  induction l generalizing seen with
  | nil => simp [dedupe] at h
  | cons r rest ih =>
    simp only [dedupe] at h
    by_cases hr : r ∈ seen
    · rw [if_pos hr] at h
      exact List.mem_cons_of_mem r (ih h)
    · rw [if_neg hr] at h
      rcases List.mem_cons.mp h with rfl | h2
      · exact List.mem_cons_self _ _
      · exact List.mem_cons_of_mem r (ih h2)

theorem dedupe_nodup_aux (seen l : List Record) :
    (dedupe seen l).Nodup ∧ ∀ x ∈ dedupe seen l, x ∉ seen := by
  induction l generalizing seen with
  | nil =>
    refine ⟨List.nodup_nil, ?_⟩
    simp [dedupe]
  | cons r rest ih =>
    simp only [dedupe]
    by_cases hr : r ∈ seen
    · rw [if_pos hr]
      exact ih seen
    · rw [if_neg hr]
      obtain ⟨ihn, ihs⟩ := ih (r :: seen)
      refine ⟨List.nodup_cons.mpr ⟨?_, ihn⟩, ?_⟩
      · intro hmem
        exact (ihs r hmem) (List.mem_cons_self r seen)
      · intro x hx
        rcases List.mem_cons.mp hx with rfl | h2
        · exact hr
        · intro hxs
          exact (ihs x h2) (List.mem_cons_of_mem r hxs)

theorem dedupe_eq_self {l : List Record} (h : l.Nodup) :
    ∀ seen, (∀ x ∈ l, x ∉ seen) → dedupe seen l = l := by
  induction l with
  | nil =>
    intro seen hs
    rfl
  | cons r rest ih =>
    intro seen hs
    rw [List.nodup_cons] at h
    simp only [dedupe]
    rw [if_neg (hs r (List.mem_cons_self r rest))]
    congr 1
    apply ih h.2
    intro x hx hmem
    rcases List.mem_cons.mp hmem with rfl | h2
    · exact h.1 hx
    · exact hs x (List.mem_cons_of_mem r hx) h2

theorem clean_mem_cases {rs : List Record} {opts : CleaningConfig} {x : Record}
    (hx : x ∈ clean rs opts) :
    (∃ y ∈ rs, x = applyRecord opts y) ∧
      (opts.remove_empty = true → recordNonEmpty x = true) := by
  simp only [clean] at hx
  have hx2 : x ∈ (if opts.remove_empty = true then
      (rs.map (applyRecord opts)).filter recordNonEmpty else rs.map (applyRecord opts)) := by
    by_cases hd : opts.drop_duplicates = true
    · rw [if_pos hd] at hx
      exact mem_of_mem_dedupe hx
    · rw [if_neg hd] at hx
      exact hx
  by_cases hre : opts.remove_empty = true
  · rw [if_pos hre] at hx2
    have h3 := List.mem_filter.mp hx2
    obtain ⟨y, hy, hxy⟩ := List.mem_map.mp h3.1
    exact ⟨⟨y, hy, hxy.symm⟩, fun _ => h3.2⟩
  · rw [if_neg hre] at hx2
    obtain ⟨y, hy, hxy⟩ := List.mem_map.mp hx2
    exact ⟨⟨y, hy, hxy.symm⟩, fun hre2 => absurd hre2 hre⟩

theorem clean_fix {rs : List Record} {opts : CleaningConfig} :
    ∀ x ∈ clean rs opts, applyRecord opts x = x := by
  intro x hx
  obtain ⟨⟨y, hy, rfl⟩, -⟩ := clean_mem_cases hx
  exact applyRecord_idem opts y

theorem clean_nonempty {rs : List Record} {opts : CleaningConfig}
    (hre : opts.remove_empty = true) :
    ∀ x ∈ clean rs opts, recordNonEmpty x = true :=
  fun _ hx => (clean_mem_cases hx).2 hre

theorem clean_nodup {rs : List Record} {opts : CleaningConfig}
    (hd : opts.drop_duplicates = true) : (clean rs opts).Nodup := by
  simp only [clean, if_pos hd]
  exact (dedupe_nodup_aux [] _).1

theorem clean_eq_self {l : List Record} {opts : CleaningConfig}
    (hfix : ∀ x ∈ l, applyRecord opts x = x)
    (hne : opts.remove_empty = true → ∀ x ∈ l, recordNonEmpty x = true)
    (hnd : opts.drop_duplicates = true → l.Nodup) :
    clean l opts = l := by
  simp only [clean]
  rw [map_fixed hfix]
  by_cases hre : opts.remove_empty = true
  · rw [if_pos hre, List.filter_eq_self.mpr (hne hre)]
    by_cases hd : opts.drop_duplicates = true
    · rw [if_pos hd, dedupe_eq_self (hnd hd) [] (by simp)]
    · rw [if_neg hd]
  · rw [if_neg hre]
    by_cases hd : opts.drop_duplicates = true
    · rw [if_pos hd, dedupe_eq_self (hnd hd) [] (by simp)]
    · rw [if_neg hd]

/-- C5: for every record sequence and every combination of the five
cleaning flags, RecordCleaner.clean applied twice equals applying it
once: the per-record transforms are idempotent, surviving records
already pass the emptiness filter, and a deduplicated list deduplicates
to itself. -/
theorem clean_idempotent (rs : List Record) (opts : CleaningConfig) :
    clean (clean rs opts) opts = clean rs opts :=
  clean_eq_self clean_fix (fun hre => clean_nonempty hre) (fun hd => clean_nodup hd)

/-- Sanity check mirroring the specification test vector: with trim and
dedupe on, a whitespace variant of a record collapses onto the clean
one, keeping a single occurrence. -/
theorem clean_trim_dedupe_vector :
    clean [[(['a'], Value.str [' ', 'x', ' '])], [(['a'], Value.str ['x'])]]
      ⟨true, true, true, true, false⟩ = [[(['a'], Value.str ['x'])]] := by decide

/-- Sanity check mirroring the specification test vector: a record whose
fields are all empty or null is dropped by remove_empty. -/
theorem clean_remove_empty_vector :
    clean [[(['a'], Value.str []), (['b'], Value.null)], [(['a'], Value.str ['x'])]]
      ⟨true, true, true, true, false⟩ = [[(['a'], Value.str ['x'])]] := by decide

/-- Sanity check for lower_keys: two fields of one record whose names
collapse to the same lowercased name resolve last-write-wins. -/
theorem clean_lower_keys_vector :
    clean [[(['A'], Value.num 1), (['a'], Value.num 2)]]
      ⟨true, true, true, true, true⟩ = [[(['a'], Value.num 2)]] := by decide

/-- Sanity check for normalize_unicode: the decomposed pair composes to
the precomposed character. -/
theorem clean_normalize_vector :
    clean [[(['a'], Value.str ['e', combiningAcute])]]
      ⟨true, true, true, true, false⟩ = [[(['a'], Value.str [eAcuteChar])]] := by decide
